import Mathlib

/-!
# RISeR2 discrete-PDF engine: shallow embedding and verification

This file embeds, in Lean 4 over exact rational arithmetic, the core of the
RISeR2 slip-rate library: the `ProbabilityDensityFunction` type and its
construction-time validation, value arrays, linear interpolation/resampling,
the variable-algebra operations (negate, add, subtract, combine, merge,
divide), the summary statistics (median/IQR/HPD), and the Monte Carlo
rejection sampler with its acceptance criteria.

Conventions of the embedding:
* `numpy` float arrays become `List ℚ`; arithmetic is exact (machine
  rounding of IEEE floats is not modelled, but the explicit decimal
  rounding `np.round(x, 10)` of `precision.fix_precision` is).
* Fallible construction (Python `raise`) becomes `Except RiserError`.
* A handful of methods are referenced by the source but defined nowhere
  under it (`pdf_at_value`, `units.check_units`, the sampler's `pit`);
  these are modelled from the specification and are marked
  `Modelled from the spec:` in their doc comments.
* In-place mutation (the constructor's area normalization writing through
  a `numpy` view) is made explicit: `negateVariable` returns both the
  constructed PDF and the contents of the caller's `px` buffer after the
  call.
-/

namespace RISeR

/-- Error taxonomy for construction/operation failures.  The Python source
raises plain `Exception`/`ValueError` with messages; each constructor below
is the counterpart of one such raise site. -/
inductive RiserError where
  /-- `len(x) != len(px)` in `__check_array_lengths__`. -/
  | lengthMismatch
  /-- `"Domain values must only increase"` in `validate`. -/
  | nonMonotonic
  /-- `"All probability values must be non-negative"` in `validate`. -/
  | negativeDensity
  /-- `"Area is ...; should be 1.0"` in `validate`. -/
  | unnormalizedArea
  /-- `"Not all PDFs are sampled over same values"` in `check_pdfs_sampling`. -/
  | domainMismatch
  /-- Python `AttributeError`: an attribute referenced by the code does not
  exist on the object (e.g. a misspelled method name). -/
  | attributeError
  deriving Repr, DecidableEq

/-- `np.diff(l)`: the list of consecutive differences `l[i+1] - l[i]`. -/
def diffs (l : List ℚ) : List ℚ :=
  List.zipWith (fun a b => b - a) l l.tail

/-- One pass of the trapezoid rule over an already-zipped `(x, px)` list. -/
def trapzPairs : List (ℚ × ℚ) → ℚ
  | [] => 0
  | [_] => 0
  | a :: b :: rest => (b.1 - a.1) * (a.2 + b.2) / 2 + trapzPairs (b :: rest)

/-- `scipy.integrate.trapezoid(px, x)`: trapezoidal integral of `px` over
`x`. -/
def trapz (x px : List ℚ) : ℚ :=
  trapzPairs (x.zip px)

/-- `scipy.integrate.cumulative_trapezoid(px, x, initial=0)`: running
trapezoidal integral, starting at 0. -/
def cumTrapzGo (acc : ℚ) : List (ℚ × ℚ) → List ℚ
  | [] => []
  | [_] => []
  | a :: b :: rest =>
      let acc' := acc + (b.1 - a.1) * (a.2 + b.2) / 2
      acc' :: cumTrapzGo acc' (b :: rest)

/-- Cumulative trapezoid with `initial=0`: same length as the input. -/
def cumTrapz (x px : List ℚ) : List ℚ :=
  match x.zip px with
  | [] => []
  | l => 0 :: cumTrapzGo 0 l

/-- `RISER_PRECISION = 10  # decimals` from `riser/precision.py`.  Note
this constant is a *decimal count*; `validate` nevertheless compares an
area difference against it directly. -/
def RISER_PRECISION : ℚ := 10

/-- Round-half-to-even on rationals (the rounding mode of `np.round`). -/
def roundHalfEven (q : ℚ) : ℤ :=
  let f := ⌊q⌋
  let r := q - f
  if r < 1 / 2 then f
  else if 1 / 2 < r then f + 1
  else if f % 2 = 0 then f else f + 1

/-- `precision.fix_precision`: `np.round(x, RISER_PRECISION)` — round to
10 decimal places. -/
def fixPrecision (q : ℚ) : ℚ :=
  (roundHalfEven (q * 10 ^ 10) : ℚ) / 10 ^ 10

end RISeR

namespace RISeR

/-- The discrete PDF entity of
`riser/probability_functions/ProbabilityDensityFunction.py`: domain
samples `x`, density values `px`, and the optional metadata triple. The
derived CDF `Px` is recomputed deterministically from `x` and `px`
(`cdfOf` below), so it is not stored as a field. -/
structure PDFModel where
  x : List ℚ
  px : List ℚ
  name : Option String := none
  variable_type : Option String := none
  unit : Option String := none
  deriving Repr, DecidableEq

/-- Decidable equality of fallible results, for concrete evaluation of
the `Except`-valued constructors in the theorems below. -/
instance {ε α : Type} [DecidableEq ε] [DecidableEq α] :
    DecidableEq (Except ε α) := fun a b =>
  match a, b with
  | .ok x, .ok y =>
      if h : x = y then .isTrue (by rw [h]) else .isFalse (by simp [h])
  | .error e, .error f =>
      if h : e = f then .isTrue (by rw [h]) else .isFalse (by simp [h])
  | .ok _, .error _ => .isFalse (by simp)
  | .error _, .ok _ => .isFalse (by simp)

/-- `__compute_cdf__`: cumulative trapezoid of `px` over `x` with
`initial=0`, then divided by its final value. -/
def cdfOf (pdf : PDFModel) : List ℚ :=
  let Px := cumTrapz pdf.x pdf.px
  Px.map (fun v => v / Px.getLastD 0)

/-- `validate`: reject decreasing domain steps (`-1 in np.sign(diff_x)`;
note equal neighbours pass), negative densities, and an area whose
distance from 1.0 exceeds `RISER_PRECISION` (the constant `10`, as
written in the source). -/
def validatePDF (x px : List ℚ) : Except RiserError Unit := do
  if (diffs x).any (fun d => d < 0) then
    throw RiserError.nonMonotonic
  if px.any (fun p => p < 0) then
    throw RiserError.negativeDensity
  if RISER_PRECISION < |1 - trapz x px| then
    throw RiserError.unnormalizedArea
  pure ()

/-- `ProbabilityDensityFunction.__init__`: record the arrays, check equal
lengths, optionally normalize the area in place, then validate. -/
def mkPDF (x px : List ℚ) (normalize_area : Bool := true)
    (name : Option String := none) (variable_type : Option String := none)
    (unit : Option String := none) : Except RiserError PDFModel := do
  if x.length ≠ px.length then
    throw RiserError.lengthMismatch
  let px' := if normalize_area then px.map (fun p => p / trapz x px) else px
  validatePDF x px'
  pure { x := x, px := px', name := name, variable_type := variable_type,
         unit := unit }

/-- Core of `np.interp`: walk the zipped `(xp, fp)` knot list and linearly
interpolate inside the first segment whose right endpoint reaches `v`.
Assumes (for faithfulness) that `v` is at least the first knot; callers
handle the out-of-range sides. -/
def npInterpCore (v : ℚ) : List (ℚ × ℚ) → ℚ
  | [] => 0
  | [a] => a.2
  | a :: b :: rest =>
      if v ≤ b.1 then a.2 + (b.2 - a.2) * (v - a.1) / (b.1 - a.1)
      else npInterpCore v (b :: rest)

/-- `np.interp(v, xs, ps, left=lv, right=rv)`: `lv` below the domain, `rv`
above it, linear interpolation between knots inside. -/
def npInterpGen (v : ℚ) (xs ps : List ℚ) (lv rv : ℚ) : ℚ :=
  match xs with
  | [] => 0
  | x0 :: _ =>
      if v < x0 then lv
      else if xs.getLastD x0 < v then rv
      else npInterpCore v (xs.zip ps)

/-- `np.interp(v, xs, ps, left=0, right=0)`: density-style interpolation,
zero outside the domain (used by `interpolate_pdf`). -/
def npInterpZ (v : ℚ) (xs ps : List ℚ) : ℚ :=
  npInterpGen v xs ps 0 0

/-- Modelled from the spec: `pdf_at_value` is called by
`divide_variables` (and by the plotting layer) but defined nowhere under
the sources; §4.1 specifies "Density-at(value) → linear interpolation of
`px`, zero outside domain", which is exactly `np.interp` with
`left=0, right=0` as used by the resampler. -/
def pdf_at_value (pdf : PDFModel) (v : ℚ) : ℚ :=
  npInterpZ v pdf.x pdf.px

/-- `inverse_transform(y)`: `np.interp(y, Px, x)` with numpy's default
edge values, i.e. clamped to `x[0]`/`x[-1]` outside `[Px[0], Px[-1]]`. -/
def inverse_transform (pdf : PDFModel) (y : ℚ) : ℚ :=
  let Px := cdfOf pdf
  npInterpGen y Px pdf.x (pdf.x.headD 0) (pdf.x.getLastD 0)

/-- Modelled from the spec: the Monte Carlo sampler calls
`markers[name].age.pit(r)`, but the PDF class under the sources defines
only `inverse_transform`; §4.7 specifies "transform each via
inverse-transform (4.1)". -/
def pit (pdf : PDFModel) (y : ℚ) : ℚ :=
  inverse_transform pdf y

end RISeR

namespace RISeR

/-- `np.arange(start, stop, step)` under exact arithmetic: the
`⌈(stop-start)/step⌉` values `start + k·step`. -/
def npArange (start stop step : ℚ) : List ℚ :=
  (List.range (Int.toNat ⌈(stop - start) / step⌉)).map
    (fun k : ℕ => start + (k : ℚ) * step)

/-- `value_arrays.create_precise_value_array(xmin, xmax, dx)`: round the
step to 10 decimals, `np.arange(xmin, xmax + dx, dx)`, round the values
to 10 decimals. -/
def create_precise_value_array (xmin xmax dx : ℚ) : List ℚ :=
  let dx' := fixPrecision dx
  (npArange xmin (xmax + dx') dx').map fixPrecision

/-- `value_arrays.check_pdfs_sampling`: every PDF must carry exactly the
first PDF's `x` array.  (Python would raise `IndexError` on an empty
list; callers always pass at least one PDF.) -/
def check_pdfs_sampling (pdfs : List PDFModel) : Except RiserError Unit :=
  match pdfs with
  | [] => .ok ()
  | p :: rest =>
      if rest.all (fun q => q.x = p.x) then .ok ()
      else .error RiserError.domainMismatch

/-- Modelled from the spec: the algebra operations call
`units.check_units`, which is not defined under the sources; §4.4
specifies "propagate a unit tag only if all inputs share an identical
unit (otherwise the result's unit is unset)", the rule that
`units.check_same_pdf_units` (which is under the sources) implements. -/
def check_units (pdfs : List PDFModel) : Option String :=
  match pdfs with
  | [] => none
  | p :: rest => if rest.all (fun q => q.unit = p.unit) then p.unit else none

/-- `np.linspace(a, b, k)`: `k` evenly spaced values from `a` to `b`
inclusive. -/
def linspace (a b : ℚ) (k : ℕ) : List ℚ :=
  (List.range k).map (fun i => a + (i : ℚ) * (b - a) / ((k : ℚ) - 1))

/-- `np.convolve(a, b, mode="full")`: `out[k] = Σ_j a[j]·b[k-j]` (indices
outside either list contribute 0 via the `getD` default). -/
def convFull (a b : List ℚ) : List ℚ :=
  (List.range (a.length + b.length - 1)).map (fun k =>
    ((List.range (k + 1)).map (fun j => a.getD j 0 * b.getD (k - j) 0)).sum)

/-- `variable_operations.negate_variable`.  The source builds the
reversed *view* `pdf.px[::-1]` and hands it to the PDF constructor, whose
default `normalize_area=True` divides that view in place by the area —
writing through to the caller's buffer.  The model therefore returns
both the constructed PDF and the contents of the input's `px` after the
call (each original entry divided by the area of the negated PDF). -/
def negateVariable (pdf : PDFModel) : Except RiserError PDFModel × List ℚ :=
  let neg_x := (pdf.x.map (fun v => -v)).reverse
  let neg_px := pdf.px.reverse
  let area := trapz neg_x neg_px
  let neg_name := pdf.name.map (fun n => String.append ("(negative) ") n)
  (mkPDF neg_x neg_px true neg_name pdf.variable_type pdf.unit,
   pdf.px.map (fun p => p / area))

/-- `variable_operations.add_variables`: domain check, unit check, output
domain `[2·min, 2·max]` with `2n-1` samples, full convolution of the
densities, normalized construction.  (The source also computes a sample
spacing `dx` that it never uses.) -/
def addVariables (pdf1 pdf2 : PDFModel) (name : Option String := none) :
    Except RiserError PDFModel := do
  check_pdfs_sampling [pdf1, pdf2]
  let unit := check_units [pdf1, pdf2]
  let x_min := pdf1.x.headD 0
  let x_max := pdf1.x.getLastD 0
  let nx := pdf1.x.length
  let xx := linspace (x_min + x_min) (x_max + x_max) (2 * nx - 1)
  let pxx := convFull pdf1.px pdf2.px
  mkPDF xx pxx true name none unit

/-- `variable_operations.subtract_variables`: add the negated second
variable; optionally zero the density at negative values before the
normalized construction. -/
def subtractVariables (pdf1 pdf2 : PDFModel) (limit_positive : Bool := false)
    (name : Option String := none) : Except RiserError PDFModel := do
  check_pdfs_sampling [pdf1, pdf2]
  let unit := check_units [pdf1, pdf2]
  let x_min := pdf1.x.headD 0
  let x_max := pdf1.x.getLastD 0
  let nx := pdf1.x.length
  let xx := linspace (x_min - x_max) (x_max - x_min) (2 * nx - 1)
  let neg_pdf2 ← (negateVariable pdf2).1
  let pxx := convFull pdf1.px neg_pdf2.px
  let pxx' := if limit_positive then
      List.zipWith (fun xv pv => if xv < 0 then 0 else pv) xx pxx
    else pxx
  mkPDF xx pxx' true name none unit

/-- `variable_operations.combine_variables`: elementwise product of the
densities on the shared domain, normalized.  (Python raises `IndexError`
on an empty list; modelled as `lengthMismatch`, never reached by
callers.) -/
def combineVariables (pdfs : List PDFModel) : Except RiserError PDFModel := do
  check_pdfs_sampling pdfs
  let unit := check_units pdfs
  match pdfs with
  | [] => throw RiserError.lengthMismatch
  | p :: rest =>
      let px := rest.foldl (fun acc pdf => List.zipWith (· * ·) acc pdf.px) p.px
      mkPDF p.x px true none none unit

/-- `variable_operations.merge_variables`: elementwise sum of the
densities on the shared domain, normalized. -/
def mergeVariables (pdfs : List PDFModel) : Except RiserError PDFModel := do
  check_pdfs_sampling pdfs
  let unit := check_units pdfs
  match pdfs with
  | [] => throw RiserError.lengthMismatch
  | p :: rest =>
      let px := rest.foldl (fun acc pdf => List.zipWith (· + ·) acc pdf.px) p.px
      mkPDF p.x px true none none unit

/-- The quotient grid and raw (pre-normalization) quotient densities of
`variable_operations.divide_variables`: grid from
`numerator.min/denominator.max` to `min(max_quotient,
numerator.max/denominator.min)` via `create_precise_value_array`, and for
each grid value `q[i]` the sum
`Σ_j denominator.px[j] · numerator.pdf_at_value(q[i]·denominator.x[j]) ·
denominator.x[j]`.  Note: unlike the other operations,
`divide_variables` performs no `check_pdfs_sampling` call. -/
def divideVariablesRaw (numerator denominator : PDFModel)
    (max_quotient dq : ℚ) : List ℚ × List ℚ :=
  let quot_min := numerator.x.headD 0 / denominator.x.getLastD 0
  let quot_max := min max_quotient (numerator.x.getLastD 0 / denominator.x.headD 0)
  let q := create_precise_value_array quot_min quot_max dq
  let pq := q.map (fun qi =>
    (List.zipWith (fun dpx dxv => dpx * pdf_at_value numerator (qi * dxv) * dxv)
      denominator.px denominator.x).sum)
  (q, pq)

/-- `variable_operations.divide_variables`: raw quotient densities, unit
tag `"num/den"` only when both inputs carry units, normalized
construction. -/
def divideVariables (numerator denominator : PDFModel)
    (max_quotient : ℚ := 100) (dq : ℚ := 1 / 100)
    (name : Option String := none) : Except RiserError PDFModel :=
  let qpq := divideVariablesRaw numerator denominator max_quotient dq
  let unit := match numerator.unit, denominator.unit with
    | some nu, some du => some (String.append nu (String.append ("/") du))
    | _, _ => none
  mkPDF qpq.1 qpq.2 true name none unit

/-- `interpolation.interpolate_pdf`: densities linearly interpolated onto
the new value array (`np.interp` with `left=0, right=0`), metadata copied
from the original, constructed with the constructor's default
`normalize_area=True` (the metadata dict passed via `**` carries no
`normalize_area` key). -/
def interpolatePdf (pdf : PDFModel) (x : List ℚ) : Except RiserError PDFModel :=
  let px_resamp := x.map (fun v => npInterpZ v pdf.x pdf.px)
  mkPDF x px_resamp true pdf.name pdf.variable_type pdf.unit

end RISeR

namespace RISeR

/-- `np.mean` of a list (0 for the empty list, where numpy yields nan). -/
def meanQ (l : List ℚ) : ℚ :=
  l.sum / (l.length : ℚ)

/-- The square of `np.std`: population variance.  `find_dx` compares
`np.std(diff_x) > RISER_PRECISION`; since both sides are non-negative
this is equivalent to `variance > RISER_PRECISION²`, which keeps the
model inside ℚ. -/
def varianceQ (l : List ℚ) : ℚ :=
  (l.map (fun d => (d - meanQ l) ^ 2)).sum / (l.length : ℚ)

/-- `analytics.find_dx`: per-sample bin widths.  Note the source builds
them with `np.diff(pdf.x, append=v)`, which *appends the scalar `v` to
`x` before differencing*, so the final entry is `v - x[-1]` (not `v` as
the docstring asserts); and the regularity test compares the spread of
the spacings against `RISER_PRECISION = 10`, not against `10^-10`. -/
def findDx (x : List ℚ) : List ℚ :=
  let diff_x := diffs x
  if RISER_PRECISION ^ 2 < varianceQ diff_x then
    (diffs (x ++ [0])).map fixPrecision
  else
    (diffs (x ++ [meanQ diff_x])).map fixPrecision

/-- `analytics.pdf_median` as written: it dereferences
`pdf.inversse_transform`, an attribute that does not exist on
`ProbabilityDensityFunction` (the class defines `inverse_transform`), so
every call raises `AttributeError` before any computation. -/
def pdf_median (_pdf : PDFModel) : Except RiserError ℚ :=
  .error RiserError.attributeError

/-- `analytics.compute_interquantile_range` as written: both bounds are
computed through the same nonexistent `pdf.inversse_transform`
attribute, so every call raises `AttributeError`. -/
def compute_interquantile_range (_pdf : PDFModel) (_confidence : ℚ) :
    Except RiserError (ℚ × ℚ) :=
  .error RiserError.attributeError

/-- What `pdf_median`'s docstring and the spec intend: the
inverse-transform (quantile) of the CDF at 0.5. -/
def pdf_median_intended (pdf : PDFModel) : ℚ :=
  inverse_transform pdf (1 / 2)

/-- What `compute_interquantile_range` intends: the quantiles at
`0.5 - c/2` and `0.5 + c/2`. -/
def interquantile_range_intended (pdf : PDFModel) (confidence : ℚ) : ℚ × ℚ :=
  (inverse_transform pdf (1 / 2 - confidence / 2),
   inverse_transform pdf (1 / 2 + confidence / 2))

/-- One sample row of the HPD computation: original index (`val_nbs`),
domain value, and probability mass `px[i]·dx[i]`. -/
structure HSample where
  idx : ℕ
  xv : ℚ
  p : ℚ
  deriving Repr, DecidableEq

/-- The enumerated `(val_nbs, x, p_i)` triples of
`compute_highest_posterior_density`. -/
def hpdEnum (x p : List ℚ) : List HSample :=
  (x.zip p).enum.map (fun ip => ⟨ip.1, ip.2.1, ip.2.2⟩)

/-- Insert into a list sorted by the strict "comes before" test. -/
def insertSorted (before : α → α → Bool) (a : α) : List α → List α
  | [] => [a]
  | b :: rest =>
      if before a b then a :: b :: rest else b :: insertSorted before a rest

/-- Insertion sort by a strict "comes before" test. -/
def sortWith (before : α → α → Bool) (l : List α) : List α :=
  l.foldr (insertSorted before) []

/-- Ordering of `np.argsort(p_i)[::-1]` gather: probability mass
descending; among equal masses the reversal of a stable ascending sort
puts the larger original index first.  (numpy's default quicksort leaves
tie order unspecified; the theorems below do not depend on it.) -/
def hpdBefore (a b : HSample) : Bool :=
  b.p < a.p || (a.p = b.p && b.idx < a.idx)

/-- Ordering of the un-sort step `np.argsort(x_sort_conf)` gather:
domain value ascending, stable (smaller index first among equal
values). -/
def xvBefore (a b : HSample) : Bool :=
  a.xv < b.xv || (a.xv = b.xv && a.idx < b.idx)

/-- `np.cumsum`: running sums. -/
def cumsumGo (acc : ℚ) : List ℚ → List ℚ
  | [] => []
  | h :: t => (acc + h) :: cumsumGo (acc + h) t

/-- `np.cumsum` of a list. -/
def cumsum (l : List ℚ) : List ℚ :=
  cumsumGo 0 l

/-- The samples that survive the confidence mask of
`compute_highest_posterior_density`, in the order produced by the
un-sort step: sort by mass descending, keep exactly the positions whose
*cumulative* mass is `≤ confidence` (an elementwise mask, not a prefix:
a negative mass from `findDx` can pull the running sum back under the
limit), then re-sort the survivors by domain value. -/
def hpdSelectedPairs (x px : List ℚ) (confidence : ℚ) : List HSample :=
  let dx := findDx x
  let p_i := List.zipWith (· * ·) px dx
  let sorted := sortWith hpdBefore (hpdEnum x p_i)
  let P_sort := cumsum (sorted.map HSample.p)
  let selected := ((sorted.zip P_sort).filter (fun t => t.2 ≤ confidence)).map
    Prod.fst
  sortWith xvBefore selected

/-- The cluster-grouping loop of `compute_highest_posterior_density`,
translated index-for-index: iterating `i = 1 .. n_conf-1`, close the
open cluster at `x_conf[i-1]` when the index gap exceeds 1 **or** `i` is
the final iteration, then restart at `x_conf[i]`.  The cluster restarted
at the final element is never recorded. -/
def hpdClustersGo (cs : ℚ) (prev : HSample) : List HSample → List (ℚ × ℚ)
  | [] => []
  | cur :: rest =>
      if 1 < (cur.idx : ℤ) - (prev.idx : ℤ) ∨ rest = [] then
        (cs, prev.xv) :: hpdClustersGo cur.xv cur rest
      else hpdClustersGo cs cur rest

/-- Cluster grouping over the selected samples.  (Python raises
`IndexError` on an empty selection at `x_conf[0]`; modelled as `[]`.) -/
def hpdClusters : List HSample → List (ℚ × ℚ)
  | [] => []
  | a :: rest => hpdClustersGo a.xv a rest

/-- `analytics.compute_highest_posterior_density`: the `(start, end)`
clusters of the confidence-masked samples. -/
def computeHPD (x px : List ℚ) (confidence : ℚ) : List (ℚ × ℚ) :=
  hpdClusters (hpdSelectedPairs x px confidence)

end RISeR

namespace RISeR

/-- A dated marker: an age PDF paired with a displacement PDF. -/
structure MarkerModel where
  age : PDFModel
  displacement : PDFModel

/-- The sampling criteria of `sampling/mc_sampling.py`. -/
inductive Criterion where
  | passAll
  | passNonnegative
  | passNonnegativeBounded (max_sample_rate : ℚ)

/-- `check_pass_fail` of the three criteria.  `PassNonnegative` accepts
when every age delta is strictly positive and every displacement delta
non-negative; the bounded variant additionally requires every
incremental rate `Δd/Δa` to be at most the bound.  (numpy `.min()`/
`.max()` over a *nonempty* diff array are modelled with `List.all`; with
a single marker numpy raises on the empty array, so the theorems below
take at least two markers.) -/
def checkPassFail : Criterion → List ℚ → List ℚ → Bool
  | .passAll, _, _ => true
  | .passNonnegative, ages, displacements =>
      (diffs ages).all (fun d => 0 < d) &&
      (diffs displacements).all (fun d => 0 ≤ d)
  | .passNonnegativeBounded m, ages, displacements =>
      let age_diffs := diffs ages
      let disp_diffs := diffs displacements
      let slip_rates := List.zipWith (fun du dt => du / dt) disp_diffs age_diffs
      age_diffs.all (fun d => 0 < d) && disp_diffs.all (fun d => 0 ≤ d) &&
      slip_rates.all (fun r => r ≤ m)

/-- The per-trial transformed sample vectors of `sample_monte_carlo`:
each marker's uniform draw pushed through the PDF's inverse transform,
in marker order. -/
def trialVals (markers : List MarkerModel) (draws : ℕ → List ℚ × List ℚ)
    (t : ℕ) : List ℚ × List ℚ :=
  (List.zipWith (fun mk r => pit mk.age r) markers (draws t).1,
   List.zipWith (fun mk r => pit mk.displacement r) markers (draws t).2)

/-- Result of the accept/reject loop: accepted columns in acceptance
order, counters, and the number of loop iterations executed. -/
structure MCLoopOut where
  cols : List (List ℚ × List ℚ)
  successes : ℕ
  tossed : ℕ
  trials : ℕ
  deriving Repr

/-- The accept/reject loop of `sample_monte_carlo`: run through trial
indices with `fuel` iterations remaining; an accepted trial stores its
column and, once `n_samples` successes are reached, breaks out. -/
def mcLoop (vals : ℕ → List ℚ × List ℚ) (check : List ℚ → List ℚ → Bool)
    (n_samples : ℕ) :
    ℕ → ℕ → MCLoopOut → MCLoopOut
  | 0, _, st => st
  | fuel + 1, i, st =>
      if check (vals i).1 (vals i).2 then
        let st' : MCLoopOut :=
          { cols := st.cols ++ [vals i], successes := st.successes + 1,
            tossed := st.tossed, trials := i + 1 }
        if st'.successes = n_samples then st'
        else mcLoop vals check n_samples fuel (i + 1) st'
      else
        mcLoop vals check n_samples fuel (i + 1)
          { cols := st.cols, successes := st.successes,
            tossed := st.tossed + 1, trials := i + 1 }

/-- Write value `v` at column `j` of every row, paired with the column
entries: models `picks[:, j] = samps`. -/
def writeCol (mat : List (List ℚ)) (j : ℕ) (col : List ℚ) : List (List ℚ) :=
  List.zipWith (fun row v => row.set j v) mat col

/-- Store the accepted columns into the pre-allocated matrix at columns
`0, 1, …` (the code writes at index `successes` before incrementing). -/
def writeCols (mat : List (List ℚ)) (cols : List (List ℚ)) : List (List ℚ) :=
  (cols.enum).foldl (fun m jc => writeCol m jc.1 jc.2) mat

/-- Full result of `sample_monte_carlo`: the two pick matrices, the
counters, and whether the trailing `i == hard_stop - 1` check fired the
shortfall warning. -/
structure MCOutput where
  agePicks : List (List ℚ)
  dispPicks : List (List ℚ)
  cols : List (List ℚ × List ℚ)
  successes : ℕ
  tossed : ℕ
  trials : ℕ
  warned : Bool

/-- `mc_sampling.sample_monte_carlo`.  `ageInit`/`dispInit` stand for the
`np.empty((m_markers, n_samples))` allocations (their garbage contents
are a parameter of the model); `draws t` is the pair of uniform vectors
`np.random.rand(m_markers)` of trial `t`.  The warning fires exactly
when the final loop index `i` equals `hard_stop - 1`, i.e. when the loop
executed all `hard_stop` iterations (or broke on the very last one).
With `hard_stop = 0` the source never binds the loop variable and that
trailing check raises `NameError`; the model is total there, so the
theorems below require `hard_stop ≥ 1`. -/
def sampleMonteCarlo (markers : List MarkerModel) (criterion : Criterion)
    (n_samples : ℕ) (hard_stop : ℕ) (draws : ℕ → List ℚ × List ℚ)
    (ageInit dispInit : List (List ℚ)) : MCOutput :=
  let out := mcLoop (trialVals markers draws) (checkPassFail criterion)
    n_samples hard_stop 0 { cols := [], successes := 0, tossed := 0, trials := 0 }
  { agePicks := writeCols ageInit (out.cols.map Prod.fst)
    dispPicks := writeCols dispInit (out.cols.map Prod.snd)
    cols := out.cols
    successes := out.successes
    tossed := out.tossed
    trials := out.trials
    warned := decide (out.trials = hard_stop) }

/-- Example input: the uniform density on `[0, 2]` (unit area). -/
def egUniform : PDFModel := ⟨[0, 2], [1/2, 1/2], none, none, none⟩

/-- Example marker whose age and displacement are both `egUniform`. -/
def egMarker : MarkerModel := ⟨egUniform, egUniform⟩

/-- Example draw stream: every trial draws `(1/4, 3/4)` for the two
markers' ages and displacements alike. -/
def egDraws : ℕ → List ℚ × List ℚ := fun _ => ([1/4, 3/4], [1/4, 3/4])

/-- Example `np.empty((2, 2))` allocation. -/
def egInit : List (List ℚ) := [[0, 0], [0, 0]]

end RISeR


namespace RISeR

/-- C1: the claim says construction without normalization fails whenever
the trapezoidal area differs from 1.0 by more than 10⁻¹⁰, and that every
accepted PDF has unit area within 10⁻¹⁰.  The code instead compares
`|1 - area|` against `RISER_PRECISION = 10` (a decimal *count* misused
as a tolerance): a PDF of area 2, built with `normalize_area=False`, is
accepted even though its area misses 1.0 by 1 > 10⁻¹⁰. -/
theorem c1_validate_accepts_area_two :
    mkPDF [0, 1] [2, 2] false none none none =
      .ok { x := [0, 1], px := [2, 2] } ∧
    trapz [0, 1] [2, 2] = 2 ∧
    1 / 10 ^ 10 < |1 - trapz [0, 1] [2, 2]| := by
  with_unfolding_all decide

/-- C4: on the valid PDF `x = [0,1,2]`, `px = [1/3,2/3,1/3]` (unit area)
at confidence 0.6828, `find_dx` returns a *negative* final bin width
(`np.diff(x, append=mean)` appends the scalar before differencing), the
confidence mask therefore keeps index 2 after the running mass already
exceeded the confidence level, and the cluster loop returns only
`(1, 1)` — the selected sample at `x = 2` is in no returned cluster, so
the clusters do not cover the selected samples and their mass is not
within one bin of the confidence level. -/
theorem c4_hpd_eval :
    mkPDF [0, 1, 2] [1/3, 2/3, 1/3] false none none none =
      .ok { x := [0, 1, 2], px := [1/3, 2/3, 1/3] } ∧
    findDx [0, 1, 2] = [1, 1, -1] ∧
    hpdSelectedPairs [0, 1, 2] [1/3, 2/3, 1/3] (6828/10000) =
      [⟨1, 1, 2/3⟩, ⟨2, 2, -1/3⟩] ∧
    computeHPD [0, 1, 2] [1/3, 2/3, 1/3] (6828/10000) = [(1, 1)] := by
  with_unfolding_all decide

/-- C5: `pdf_median` and `compute_interquantile_range` both dereference
the nonexistent attribute `inversse_transform` (the class defines
`inverse_transform`), so both raise `AttributeError` on every PDF
instead of returning the quantiles; the intended inverse transform at
0.5 on the uniform PDF over `[0,2]` would return the median 1. -/
theorem c5_median_iqr_attribute_error :
    pdf_median ⟨[0, 2], [1/2, 1/2], none, none, none⟩ =
      .error RiserError.attributeError ∧
    compute_interquantile_range ⟨[0, 2], [1/2, 1/2], none, none, none⟩
      (6828/10000) = .error RiserError.attributeError ∧
    pdf_median_intended ⟨[0, 2], [1/2, 1/2], none, none, none⟩ = 1 := by
  with_unfolding_all decide

/-- C7: `negate_variable` is not mutation-free: the PDF with `x = [0,2]`,
`px = [1/2, 1]` (area 3/2) is accepted by the constructor as shipped
(`validate` tolerates any area within 10 of 1.0), and `negate_variable`
on it divides the caller's `px` buffer in place by the area of the
reversed view, leaving `[1/3, 2/3]` in place of `[1/2, 1]` — the input
is mutated, and by the same mechanism any accepted input whose area is
not exactly 1 (the spec tolerates a 10⁻¹⁰ deviation) is rescaled. -/
theorem c7_negate_mutates_input :
    mkPDF [0, 2] [1/2, 1] false none none none =
      .ok { x := [0, 2], px := [1/2, 1] } ∧
    (negateVariable ⟨[0, 2], [1/2, 1], none, none, none⟩).1 =
      .ok { x := [-2, 0], px := [2/3, 1/3] } ∧
    (negateVariable ⟨[0, 2], [1/2, 1], none, none, none⟩).2 = [1/3, 2/3] ∧
    ([1/3, 2/3] : List ℚ) ≠ [1/2, 1] := by
  with_unfolding_all decide

/-- C6 counterexample: `divide_variables` performs no sampling check: on
two accepted PDFs with different `x` arrays it computes and returns a
quotient PDF rather than failing with a domain mismatch. -/
theorem c6_divide_skips_domain_check :
    (⟨[0, 2], [1/2, 1/2], none, none, none⟩ : PDFModel).x ≠
      (⟨[1, 2], [1, 1], none, none, none⟩ : PDFModel).x ∧
    divideVariables ⟨[0, 2], [1/2, 1/2], none, none, none⟩
      ⟨[1, 2], [1, 1], none, none, none⟩ 2 1 none =
      .ok { x := [0, 1, 2], px := [3/5, 3/5, 1/5] } := by
  with_unfolding_all decide

end RISeR

namespace RISeR

/-- C6 (amended): the four elementwise algebra operations do check the
shared domain: on PDFs whose `x` arrays differ, `add_variables`,
`subtract_variables`, `combine_variables` and `merge_variables` all fail
with the domain-mismatch error before computing anything. -/
theorem c6_algebra_ops_check_domains (p1 p2 : PDFModel)
    (name : Option String) (lp : Bool) (h : p1.x ≠ p2.x) :
    addVariables p1 p2 name = .error RiserError.domainMismatch ∧
    subtractVariables p1 p2 lp name = .error RiserError.domainMismatch ∧
    combineVariables [p1, p2] = .error RiserError.domainMismatch ∧
    mergeVariables [p1, p2] = .error RiserError.domainMismatch := by
  have hch : check_pdfs_sampling [p1, p2] = .error RiserError.domainMismatch := by
    simp [check_pdfs_sampling, Ne.symm h]
  refine ⟨?_, ?_, ?_, ?_⟩ <;>
    · simp only [addVariables, subtractVariables, combineVariables,
        mergeVariables, hch]
      rfl

/-- C6 witness: the amended theorem applied to two concrete PDFs on
different domains. -/
theorem c6_algebra_ops_check_domains_witness :
    (⟨[0, 1], [1, 1], none, none, none⟩ : PDFModel).x ≠
      (⟨[0, 2], [1/2, 1/2], none, none, none⟩ : PDFModel).x ∧
    (addVariables ⟨[0, 1], [1, 1], none, none, none⟩
        ⟨[0, 2], [1/2, 1/2], none, none, none⟩ none =
        .error RiserError.domainMismatch ∧
      subtractVariables ⟨[0, 1], [1, 1], none, none, none⟩
        ⟨[0, 2], [1/2, 1/2], none, none, none⟩ false none =
        .error RiserError.domainMismatch ∧
      combineVariables [⟨[0, 1], [1, 1], none, none, none⟩,
        ⟨[0, 2], [1/2, 1/2], none, none, none⟩] =
        .error RiserError.domainMismatch ∧
      mergeVariables [⟨[0, 1], [1, 1], none, none, none⟩,
        ⟨[0, 2], [1/2, 1/2], none, none, none⟩] =
        .error RiserError.domainMismatch) :=
  ⟨by with_unfolding_all decide,
   c6_algebra_ops_check_domains _ _ none false (by with_unfolding_all decide)⟩

end RISeR

namespace RISeR

theorem diffs_cons_cons (a b : ℚ) (t : List ℚ) :
    diffs (a :: b :: t) = (b - a) :: diffs (b :: t) := by
  simp [diffs]

theorem diffs_length (l : List ℚ) : (diffs l).length = l.length - 1 := by
  simp [diffs]

theorem diffs_getD (l : List ℚ) (i : ℕ) (h : i + 1 < l.length) :
    (diffs l).getD i 0 = l.getD (i + 1) 0 - l.getD i 0 := by
  induction l generalizing i with
  | nil => simp at h
  | cons a t ih =>
      match t, i with
      | [], _ => simp at h
      | b :: t', 0 => simp [diffs_cons_cons]
      | b :: t', i + 1 =>
          rw [diffs_cons_cons]
          simpa using ih i (by simpa using h)

theorem diffs_getD_mem (l : List ℚ) (i : ℕ) (h : i + 1 < l.length) :
    (diffs l).getD i 0 ∈ diffs l := by
  have hi : i < (diffs l).length := by rw [diffs_length]; omega
  rw [List.getD_eq_getElem _ _ hi]
  exact List.getElem_mem hi

end RISeR

namespace RISeR

/-- C10: any `(ages, displacements)` vector accepted by `PassNonnegative`
or by `PassNonnegativeBounded` has every adjacent age difference strictly
positive — in particular nonzero, so the elementwise `Δd/Δa` of the
Monte Carlo rate path never divides by zero on accepted picks.  (Equal
adjacent ages make the difference 0, which this theorem shows cannot be
accepted: it is the contrapositive of the strict positivity.) -/
theorem c10_accepted_age_steps_positive (ages displacements : List ℚ) (m : ℚ)
    (h : checkPassFail .passNonnegative ages displacements = true ∨
         checkPassFail (.passNonnegativeBounded m) ages displacements = true) :
    ∀ i, i + 1 < ages.length →
      0 < ages.getD (i + 1) 0 - ages.getD i 0 ∧
      ages.getD (i + 1) 0 - ages.getD i 0 ≠ 0 := by
  have hall : (diffs ages).all (fun d => decide (0 < d)) = true := by
    rcases h with h | h
    · simp only [checkPassFail, Bool.and_eq_true] at h
      exact h.1
    · simp only [checkPassFail, Bool.and_eq_true] at h
      exact h.1.1
  intro i hi
  have hmem := diffs_getD_mem ages i hi
  have := List.all_eq_true.mp hall _ hmem
  have hpos : 0 < (diffs ages).getD i 0 := by simpa using this
  rw [diffs_getD ages i hi] at hpos
  exact ⟨hpos, ne_of_gt hpos⟩

/-- C10 witness: the theorem applied to the accepted vector
`ages = [1, 2]`, `displacements = [3, 4]`. -/
theorem c10_accepted_age_steps_positive_witness :
    checkPassFail .passNonnegative [1, 2] [3, 4] = true ∧
    (∀ i, i + 1 < ([1, 2] : List ℚ).length →
      0 < ([1, 2] : List ℚ).getD (i + 1) 0 - ([1, 2] : List ℚ).getD i 0 ∧
      ([1, 2] : List ℚ).getD (i + 1) 0 - ([1, 2] : List ℚ).getD i 0 ≠ 0) :=
  ⟨by with_unfolding_all decide,
   c10_accepted_age_steps_positive [1, 2] [3, 4] 0
     (Or.inl (by with_unfolding_all decide))⟩

end RISeR

namespace RISeR

/-- Every column the loop stores was accepted by the check. -/
theorem mcLoop_cols_accepted (vals : ℕ → List ℚ × List ℚ)
    (check : List ℚ → List ℚ → Bool) (n : ℕ) :
    ∀ (fuel i : ℕ) (st : MCLoopOut),
      (∀ c ∈ st.cols, check c.1 c.2 = true) →
      ∀ c ∈ (mcLoop vals check n fuel i st).cols, check c.1 c.2 = true := by
  intro fuel
  induction fuel with
  | zero => intro i st h; simpa [mcLoop] using h
  | succ fuel ih =>
      intro i st h
      rw [mcLoop]
      by_cases hc : check (vals i).1 (vals i).2 = true
      · simp only [hc, if_true]
        have hcols : ∀ c ∈ st.cols ++ [vals i], check c.1 c.2 = true := by
          intro c hcmem
          rcases List.mem_append.mp hcmem with hcm | hcm
          · exact h c hcm
          · rcases List.mem_singleton.mp hcm with rfl
            exact hc
        by_cases hdone : st.successes + 1 = n
        · simp only [hdone, if_true]
          exact hcols
        · simp only [hdone, if_false]
          exact ih (i + 1) _ hcols
      · simp only [Bool.not_eq_true] at hc
        simp only [hc, Bool.false_eq_true, if_false]
        exact ih (i + 1) _ h

/-- The loop never exceeds the requested number of successes. -/
theorem mcLoop_successes_le (vals : ℕ → List ℚ × List ℚ)
    (check : List ℚ → List ℚ → Bool) (n : ℕ) :
    ∀ (fuel i : ℕ) (st : MCLoopOut), st.successes < n →
      (mcLoop vals check n fuel i st).successes ≤ n := by
  intro fuel
  induction fuel with
  | zero => intro i st h; simp [mcLoop]; omega
  | succ fuel ih =>
      intro i st h
      rw [mcLoop]
      by_cases hc : check (vals i).1 (vals i).2 = true
      · simp only [hc, if_true]
        by_cases hdone : st.successes + 1 = n
        · simp only [hdone, if_true]; omega
        · simp only [hdone, if_false]
          exact ih (i + 1) _ (by simp; omega)
      · simp only [Bool.not_eq_true] at hc
        simp only [hc, Bool.false_eq_true, if_false]
        exact ih (i + 1) _ h

/-- The loop runs at most `fuel` further trials, and if it stopped early
it was because the success target was reached. -/
theorem mcLoop_trials (vals : ℕ → List ℚ × List ℚ)
    (check : List ℚ → List ℚ → Bool) (n : ℕ) :
    ∀ (fuel i : ℕ) (st : MCLoopOut), st.trials = i →
      (mcLoop vals check n fuel i st).trials ≤ i + fuel ∧
      ((mcLoop vals check n fuel i st).trials = i + fuel ∨
        (mcLoop vals check n fuel i st).successes = n) := by
  intro fuel
  induction fuel with
  | zero => intro i st h; simp [mcLoop]; omega
  | succ fuel ih =>
      intro i st h
      rw [mcLoop]
      dsimp only
      split
      · split
        next hdone =>
          refine ⟨by simp, Or.inr hdone⟩
        next hdone =>
          have := ih (i + 1)
            ⟨st.cols ++ [vals i], st.successes + 1, st.tossed, i + 1⟩ rfl
          omega
      · have := ih (i + 1) ⟨st.cols, st.successes, st.tossed + 1, i + 1⟩ rfl
        omega

/-- The number of stored columns tracks the success counter. -/
theorem mcLoop_cols_length (vals : ℕ → List ℚ × List ℚ)
    (check : List ℚ → List ℚ → Bool) (n : ℕ) :
    ∀ (fuel i : ℕ) (st : MCLoopOut), st.cols.length = st.successes →
      (mcLoop vals check n fuel i st).cols.length =
        (mcLoop vals check n fuel i st).successes := by
  intro fuel
  induction fuel with
  | zero => intro i st h; simpa [mcLoop] using h
  | succ fuel ih =>
      intro i st h
      rw [mcLoop]
      dsimp only
      split
      · split
        · simp [h]
        · exact ih (i + 1)
            ⟨st.cols ++ [vals i], st.successes + 1, st.tossed, i + 1⟩
            (by simp [h])
      · exact ih (i + 1) ⟨st.cols, st.successes, st.tossed + 1, i + 1⟩ h

end RISeR

namespace RISeR

/-- Any property of accepted trial columns is an invariant of the stored
columns. -/
theorem mcLoop_cols_invariant (vals : ℕ → List ℚ × List ℚ)
    (check : List ℚ → List ℚ → Bool) (n : ℕ)
    (P : List ℚ × List ℚ → Prop)
    (hP : ∀ i, check (vals i).1 (vals i).2 = true → P (vals i)) :
    ∀ (fuel i : ℕ) (st : MCLoopOut),
      (∀ c ∈ st.cols, P c) →
      ∀ c ∈ (mcLoop vals check n fuel i st).cols, P c := by
  intro fuel
  induction fuel with
  | zero => intro i st h; simpa [mcLoop] using h
  | succ fuel ih =>
      intro i st h
      have hcols : check (vals i).1 (vals i).2 = true →
          ∀ c ∈ st.cols ++ [vals i], P c := by
        intro hc c hcmem
        rcases List.mem_append.mp hcmem with hcm | hcm
        · exact h c hcm
        · rcases List.mem_singleton.mp hcm with rfl
          exact hP i hc
      rw [mcLoop]
      dsimp only
      split
      next hc =>
        split
        · exact hcols hc
        · exact ih (i + 1) _ (hcols hc)
      · exact ih (i + 1) _ h

/-- `writeCol` keeps every row's length. -/
theorem writeCol_rows (n j : ℕ) :
    ∀ (mat : List (List ℚ)) (col : List ℚ), (∀ r ∈ mat, r.length = n) →
      ∀ r ∈ writeCol mat j col, r.length = n := by
  intro mat
  induction mat with
  | nil => intro col _ r hr; simp [writeCol] at hr
  | cons row mat ih =>
      intro col h r hr
      cases col with
      | nil => simp [writeCol] at hr
      | cons v col =>
          simp only [writeCol, List.zipWith_cons_cons] at hr
          rcases List.mem_cons.mp hr with hr | hr
          · subst hr
            rw [List.length_set]
            exact h row (by simp)
          · exact ih col (fun r' hm => h r' (by simp [hm])) r hr

/-- `writeCol` keeps the number of rows when the column has a value for
every row. -/
theorem writeCol_length (mat : List (List ℚ)) (j : ℕ) (col : List ℚ) :
    (writeCol mat j col).length = min mat.length col.length := by
  simp [writeCol]

/-- Folding `writeCol` over any list of indexed columns (each as long as
the matrix) preserves the matrix shape. -/
theorem writeCols_fold_shape (m n : ℕ) :
    ∀ (jcs : List (ℕ × List ℚ)) (mat : List (List ℚ)),
      mat.length = m → (∀ r ∈ mat, r.length = n) →
      (∀ jc ∈ jcs, jc.2.length = m) →
      (jcs.foldl (fun mm jc => writeCol mm jc.1 jc.2) mat).length = m ∧
      ∀ r ∈ jcs.foldl (fun mm jc => writeCol mm jc.1 jc.2) mat, r.length = n := by
  intro jcs
  induction jcs with
  | nil => intro mat h1 h2 _; exact ⟨h1, h2⟩
  | cons jc jcs ih =>
      intro mat h1 h2 h3
      simp only [List.foldl_cons]
      refine ih (writeCol mat jc.1 jc.2) ?_ ?_ ?_
      · rw [writeCol_length, h1, h3 jc (by simp)]
        omega
      · exact writeCol_rows n jc.1 mat jc.2 h2
      · intro jc' hm
        exact h3 jc' (by simp [hm])

/-- `writeCols` preserves the matrix shape when every stored column has
one entry per row. -/
theorem writeCols_shape (m n : ℕ) (mat : List (List ℚ))
    (cols : List (List ℚ)) (h1 : mat.length = m)
    (h2 : ∀ r ∈ mat, r.length = n) (h3 : ∀ c ∈ cols, c.length = m) :
    (writeCols mat cols).length = m ∧
    ∀ r ∈ writeCols mat cols, r.length = n := by
  refine writeCols_fold_shape m n cols.enum mat h1 h2 ?_
  intro jc hm
  refine h3 jc.2 ?_
  have := List.mem_enum_iff_getElem?.mp hm
  exact List.getElem?_mem this

end RISeR

namespace RISeR

/-- C3: for any marker list, criterion, and draw stream,
`sample_monte_carlo` returns two pick matrices of shape
`(n_markers, n_samples)` whose stored columns are in marker order (one
entry per marker); it stops as soon as `n_samples` trials have been
accepted or `hard_stop` trials have run (if it stopped below the
ceiling, the success target was reached); and if it ends short of
`n_samples` successes the shortfall warning fired and the matrices are
still returned.  The hypotheses delimit the regime in which the source
itself returns instead of raising: `n_samples ≥ 1` (with 0 requested
samples an accepted trial would index column 0 of an `(m, 0)` array),
`hard_stop ≥ 1` (with 0 the trailing `if i == hard_stop - 1` check
reads a never-bound loop variable, `NameError`), and at least two
markers unless the criterion is `PassAll` (the other criteria call
`.min()` on the empty diff array of a single marker, `ValueError`). -/
theorem c3_sample_monte_carlo
    (markers : List MarkerModel) (criterion : Criterion)
    (n_samples hard_stop : ℕ) (draws : ℕ → List ℚ × List ℚ)
    (ageInit dispInit : List (List ℚ))
    (hn : 1 ≤ n_samples)
    (_hhs : 1 ≤ hard_stop)
    (_hm : 2 ≤ markers.length ∨ criterion = Criterion.passAll)
    (hA1 : ageInit.length = markers.length)
    (hA2 : ∀ r ∈ ageInit, r.length = n_samples)
    (hD1 : dispInit.length = markers.length)
    (hD2 : ∀ r ∈ dispInit, r.length = n_samples)
    (hdraws : ∀ t, (draws t).1.length = markers.length ∧
      (draws t).2.length = markers.length) :
    let res := sampleMonteCarlo markers criterion n_samples hard_stop draws
      ageInit dispInit
    res.agePicks.length = markers.length ∧
    (∀ r ∈ res.agePicks, r.length = n_samples) ∧
    res.dispPicks.length = markers.length ∧
    (∀ r ∈ res.dispPicks, r.length = n_samples) ∧
    (∀ c ∈ res.cols, c.1.length = markers.length ∧
      c.2.length = markers.length) ∧
    res.cols.length = res.successes ∧
    res.successes ≤ n_samples ∧
    res.trials ≤ hard_stop ∧
    (res.trials < hard_stop → res.successes = n_samples) ∧
    (res.successes < n_samples → res.warned = true) := by
  intro res
  have hres : res = sampleMonteCarlo markers criterion n_samples hard_stop
    draws ageInit dispInit := rfl
  simp only [hres, sampleMonteCarlo]
  have hcolsP : ∀ c ∈ (mcLoop (trialVals markers draws)
      (checkPassFail criterion) n_samples hard_stop 0
      ⟨[], 0, 0, 0⟩).cols,
      c.1.length = markers.length ∧ c.2.length = markers.length := by
    refine mcLoop_cols_invariant _ _ _ _ ?_ hard_stop 0 _ (by simp)
    intro i _
    constructor
    · simp [trialVals, (hdraws i).1]
    · simp [trialVals, (hdraws i).2]
  have hsucc := mcLoop_successes_le (trialVals markers draws)
    (checkPassFail criterion) n_samples hard_stop 0 ⟨[], 0, 0, 0⟩
    (by simpa using hn)
  have htr := mcLoop_trials (trialVals markers draws)
    (checkPassFail criterion) n_samples hard_stop 0 ⟨[], 0, 0, 0⟩ rfl
  have hlen := mcLoop_cols_length (trialVals markers draws)
    (checkPassFail criterion) n_samples hard_stop 0 ⟨[], 0, 0, 0⟩ rfl
  have hage := writeCols_shape markers.length n_samples ageInit
    ((mcLoop (trialVals markers draws) (checkPassFail criterion) n_samples
      hard_stop 0 ⟨[], 0, 0, 0⟩).cols.map Prod.fst) hA1 hA2
    (by
      intro c hc
      rcases List.mem_map.mp hc with ⟨cp, hcp, rfl⟩
      exact (hcolsP cp hcp).1)
  have hdisp := writeCols_shape markers.length n_samples dispInit
    ((mcLoop (trialVals markers draws) (checkPassFail criterion) n_samples
      hard_stop 0 ⟨[], 0, 0, 0⟩).cols.map Prod.snd) hD1 hD2
    (by
      intro c hc
      rcases List.mem_map.mp hc with ⟨cp, hcp, rfl⟩
      exact (hcolsP cp hcp).2)
  refine ⟨hage.1, hage.2, hdisp.1, hdisp.2, hcolsP, hlen, hsucc, ?_, ?_, ?_⟩
  · simpa using htr.1
  · intro hlt
    rcases htr.2 with heq | heq
    · omega
    · exact heq
  · intro hshort
    have : (mcLoop (trialVals markers draws) (checkPassFail criterion)
        n_samples hard_stop 0 ⟨[], 0, 0, 0⟩).trials = hard_stop := by
      rcases htr.2 with heq | heq
      · simpa using heq
      · omega
    simp [sampleMonteCarlo, this]

end RISeR

namespace RISeR

/-- C3 witness: the theorem applied to two uniform markers, the constant
draw stream, `n_samples = 2`, `hard_stop = 5`. -/
theorem c3_sample_monte_carlo_witness :
    (1 ≤ 2 ∧ 1 ≤ 5 ∧ 2 ≤ ([egMarker, egMarker] : List MarkerModel).length ∧
      egInit.length = [egMarker, egMarker].length ∧
      (∀ r ∈ egInit, r.length = 2) ∧
      (∀ t, (egDraws t).1.length = [egMarker, egMarker].length ∧
        (egDraws t).2.length = [egMarker, egMarker].length)) ∧
    (let res := sampleMonteCarlo [egMarker, egMarker] .passAll 2 5 egDraws
      egInit egInit
    res.agePicks.length = [egMarker, egMarker].length ∧
    (∀ r ∈ res.agePicks, r.length = 2) ∧
    res.dispPicks.length = [egMarker, egMarker].length ∧
    (∀ r ∈ res.dispPicks, r.length = 2) ∧
    (∀ c ∈ res.cols, c.1.length = [egMarker, egMarker].length ∧
      c.2.length = [egMarker, egMarker].length) ∧
    res.cols.length = res.successes ∧
    res.successes ≤ 2 ∧
    res.trials ≤ 5 ∧
    (res.trials < 5 → res.successes = 2) ∧
    (res.successes < 2 → res.warned = true)) :=
  ⟨⟨by omega, by omega, by simp, rfl, by simp [egInit],
    fun _t => ⟨rfl, rfl⟩⟩,
   c3_sample_monte_carlo [egMarker, egMarker] .passAll 2 5 egDraws
     egInit egInit (by omega) (by omega) (by simp) rfl (by simp [egInit])
     rfl (by simp [egInit]) (fun _t => ⟨rfl, rfl⟩)⟩

/-- `getD` coordinates of `zipWith`. -/
theorem zipWith_getD_q (f : ℚ → ℚ → ℚ) :
    ∀ (a b : List ℚ) (i : ℕ), i < a.length → i < b.length →
      (List.zipWith f a b).getD i 0 = f (a.getD i 0) (b.getD i 0) := by
  intro a
  induction a with
  | nil => intro b i h _; simp at h
  | cons x a ih =>
      intro b i h1 h2
      cases b with
      | nil => simp at h2
      | cons y b =>
          cases i with
          | zero => simp
          | succ i =>
              simpa using ih b i (by simpa using h1) (by simpa using h2)

/-- What acceptance by the bounded criterion guarantees: strictly
positive age steps and every incremental rate at most the bound. -/
theorem boundedCheck_rates (ages disps : List ℚ) (m : ℚ)
    (hl : disps.length = ages.length)
    (h : checkPassFail (.passNonnegativeBounded m) ages disps = true) :
    ∀ i, i + 1 < ages.length →
      0 < ages.getD (i + 1) 0 - ages.getD i 0 ∧
      (disps.getD (i + 1) 0 - disps.getD i 0) /
        (ages.getD (i + 1) 0 - ages.getD i 0) ≤ m := by
  simp only [checkPassFail, Bool.and_eq_true] at h
  obtain ⟨⟨hA, _⟩, hR⟩ := h
  intro i hi
  have hpos : 0 < (diffs ages).getD i 0 := by
    have := List.all_eq_true.mp hA _ (diffs_getD_mem ages i hi)
    simpa using this
  have hiA : i < (diffs ages).length := by rw [diffs_length]; omega
  have hiD : i < (diffs disps).length := by rw [diffs_length]; omega
  have hiR : i < (List.zipWith (fun du dt => du / dt) (diffs disps)
      (diffs ages)).length := by
    rw [List.length_zipWith]; omega
  have hrate : (List.zipWith (fun du dt => du / dt) (diffs disps)
      (diffs ages)).getD i 0 ≤ m := by
    have hmem : (List.zipWith (fun du dt => du / dt) (diffs disps)
        (diffs ages)).getD i 0 ∈ List.zipWith (fun du dt => du / dt)
        (diffs disps) (diffs ages) := by
      rw [List.getD_eq_getElem _ _ hiR]
      exact List.getElem_mem hiR
    have := List.all_eq_true.mp hR _ hmem
    simpa using this
  rw [zipWith_getD_q _ _ _ _ hiD hiA, diffs_getD ages i hi,
    diffs_getD disps i (by omega)] at hrate
  rw [diffs_getD ages i hi] at hpos
  exact ⟨hpos, hrate⟩

/-- C9: with the bounded-rate criterion, every column the sampler stores
was accepted by `check_pass_fail`, and in every stored column every
adjacent-pair incremental rate `Δdisplacement/Δage` is at most
`max_sample_rate` (with a strictly positive age step). -/
theorem c9_bounded_rate_never_exceeded
    (markers : List MarkerModel) (n_samples hard_stop : ℕ)
    (draws : ℕ → List ℚ × List ℚ) (ageInit dispInit : List (List ℚ))
    (maxRate : ℚ)
    (hdraws : ∀ t, (draws t).1.length = markers.length ∧
      (draws t).2.length = markers.length) :
    ∀ col ∈ (sampleMonteCarlo markers (.passNonnegativeBounded maxRate)
      n_samples hard_stop draws ageInit dispInit).cols,
      checkPassFail (.passNonnegativeBounded maxRate) col.1 col.2 = true ∧
      ∀ i, i + 1 < col.1.length →
        0 < col.1.getD (i + 1) 0 - col.1.getD i 0 ∧
        (col.2.getD (i + 1) 0 - col.2.getD i 0) /
          (col.1.getD (i + 1) 0 - col.1.getD i 0) ≤ maxRate := by
  have hinv : ∀ col ∈ (mcLoop (trialVals markers draws)
      (checkPassFail (.passNonnegativeBounded maxRate)) n_samples hard_stop 0
      ⟨[], 0, 0, 0⟩).cols,
      checkPassFail (.passNonnegativeBounded maxRate) col.1 col.2 = true ∧
      col.1.length = markers.length ∧ col.2.length = markers.length := by
    refine mcLoop_cols_invariant _ _ _ _ ?_ hard_stop 0 _ (by simp)
    intro i hc
    refine ⟨hc, ?_, ?_⟩
    · simp [trialVals, (hdraws i).1]
    · simp [trialVals, (hdraws i).2]
  intro col hcol
  have hcol' : col ∈ (mcLoop (trialVals markers draws)
      (checkPassFail (.passNonnegativeBounded maxRate)) n_samples hard_stop 0
      ⟨[], 0, 0, 0⟩).cols := hcol
  obtain ⟨hchk, h1, h2⟩ := hinv col hcol'
  refine ⟨hchk, ?_⟩
  intro i hi
  exact boundedCheck_rates col.1 col.2 maxRate (by rw [h1, h2]) hchk i hi

/-- C9 witness: the theorem applied to two uniform markers with rate
bound 2 and the constant draw stream. -/
theorem c9_bounded_rate_never_exceeded_witness :
    (∀ t, (egDraws t).1.length = [egMarker, egMarker].length ∧
      (egDraws t).2.length = [egMarker, egMarker].length) ∧
    (∀ col ∈ (sampleMonteCarlo [egMarker, egMarker]
      (.passNonnegativeBounded 2) 2 5 egDraws egInit egInit).cols,
      checkPassFail (.passNonnegativeBounded 2) col.1 col.2 = true ∧
      ∀ i, i + 1 < col.1.length →
        0 < col.1.getD (i + 1) 0 - col.1.getD i 0 ∧
        (col.2.getD (i + 1) 0 - col.2.getD i 0) /
          (col.1.getD (i + 1) 0 - col.1.getD i 0) ≤ 2) :=
  ⟨fun _t => ⟨rfl, rfl⟩,
   c9_bounded_rate_never_exceeded [egMarker, egMarker] 2 5 egDraws
     egInit egInit 2 (fun _t => ⟨rfl, rfl⟩)⟩

end RISeR

namespace RISeR

/-- `getD` of a mapped range. -/
theorem getD_range_map (f : ℕ → ℚ) (n k : ℕ) (h : k < n) :
    ((List.range n).map f).getD k 0 = f k := by
  rw [List.getD_eq_getElem _ _ (by simpa using h)]
  simp

/-- `getD` of a mapped list inside bounds. -/
theorem getD_map_q (f : ℚ → ℚ) (l : List ℚ) (k : ℕ) (h : k < l.length) :
    (l.map f).getD k 0 = f (l.getD k 0) := by
  rw [List.getD_eq_getElem _ _ (by simpa using h),
    List.getD_eq_getElem _ _ h]
  simp

/-- Interpolation with zero edge values vanishes outside the knot
range. -/
theorem npInterpZ_outside (v : ℚ) (xs ps : List ℚ)
    (h : v < xs.headD 0 ∨ xs.getLastD 0 < v) : npInterpZ v xs ps = 0 := by
  cases xs with
  | nil => rfl
  | cons x0 tl =>
      simp only [npInterpZ, npInterpGen]
      rcases h with h | h
      · simp only [List.headD_cons] at h
        rw [if_pos h]
      · by_cases h0 : v < x0
        · rw [if_pos h0]
        · rw [if_neg h0, if_pos]
          have : (x0 :: tl).getLastD 0 = (x0 :: tl).getLastD x0 := by
            cases tl <;> simp [List.getLastD]
          rw [← this]
          simpa using h

/-- A list's sum as a `Finset.range` sum of its `getD` entries. -/
theorem sum_eq_finset_getD (l : List ℚ) :
    l.sum = ∑ j in Finset.range l.length, l.getD j 0 := by
  induction l with
  | nil => simp
  | cons x t ih =>
      rw [List.sum_cons, ih, List.length_cons, Finset.sum_range_succ']
      simp [add_comm]

/-- The sum of a `zipWith` of equally long lists as an indexed
`Finset.range` sum. -/
theorem zipWith_sum_eq_finset (f : ℚ → ℚ → ℚ) (a b : List ℚ)
    (h : a.length = b.length) :
    (List.zipWith f a b).sum =
      ∑ j in Finset.range b.length, f (a.getD j 0) (b.getD j 0) := by
  rw [sum_eq_finset_getD]
  rw [List.length_zipWith, h, Nat.min_self]
  refine Finset.sum_congr rfl ?_
  intro j hj
  rw [Finset.mem_range] at hj
  exact zipWith_getD_q f a b j (by omega) (by omega)

end RISeR

namespace RISeR

theorem npArange_length (s e st : ℚ) :
    (npArange s e st).length = Int.toNat ⌈(e - s) / st⌉ := by
  rw [npArange, List.length_map, List.length_range]

theorem npArange_getD (s e st : ℚ) (k : ℕ)
    (h : k < (npArange s e st).length) :
    (npArange s e st).getD k 0 = s + (k : ℚ) * st := by
  rw [npArange_length] at h
  rw [npArange]
  exact getD_range_map _ _ _ h

theorem cpva_length (xmin xmax dx : ℚ) :
    (create_precise_value_array xmin xmax dx).length =
      Int.toNat ⌈(xmax + fixPrecision dx - xmin) / fixPrecision dx⌉ := by
  simp only [create_precise_value_array]
  rw [List.length_map, npArange_length]

theorem cpva_getD (xmin xmax dx : ℚ) (k : ℕ)
    (h : k < (create_precise_value_array xmin xmax dx).length) :
    (create_precise_value_array xmin xmax dx).getD k 0 =
      fixPrecision (xmin + (k : ℚ) * fixPrecision dx) := by
  have h' : k < (npArange xmin (xmax + fixPrecision dx)
      (fixPrecision dx)).length := by
    simpa [create_precise_value_array] using h
  rw [create_precise_value_array]
  rw [getD_map_q _ _ _ h', npArange_getD _ _ _ _ h']

/-- C2: on a denominator with positive domain values, the raw (pre-
normalization) output of `divide_variables`: the quotient grid runs from
`numerator.min/denominator.max` (first entry) to
`min(max_quotient, numerator.max/denominator.min)` (the unrounded last
grid point is the first point at or beyond that bound) in steps of the
(precision-rounded) `dq`, and the density at each `q[i]` is
`Σ_j denominator.px[j] · numeratorDensity(q[i]·denominator.x[j]) ·
denominator.x[j]`, where the numerator density is linear interpolation,
zero outside the numerator's domain. -/
theorem c2_divide_variables_raw (numerator denominator : PDFModel)
    (max_quotient dq : ℚ)
    (hdl : denominator.px.length = denominator.x.length)
    (_hpos : ∀ v ∈ denominator.x, 0 < v)
    (hdq : 0 < fixPrecision dq)
    (hAB : numerator.x.headD 0 / denominator.x.getLastD 0 ≤
      min max_quotient (numerator.x.getLastD 0 / denominator.x.headD 0)) :
    let dq' := fixPrecision dq
    let A := numerator.x.headD 0 / denominator.x.getLastD 0
    let B := min max_quotient (numerator.x.getLastD 0 / denominator.x.headD 0)
    let q := (divideVariablesRaw numerator denominator max_quotient dq).1
    let pq := (divideVariablesRaw numerator denominator max_quotient dq).2
    pq.length = q.length ∧
    (∀ i, i < q.length → pq.getD i 0 =
      ∑ j in Finset.range denominator.x.length,
        denominator.px.getD j 0 *
          npInterpZ (q.getD i 0 * denominator.x.getD j 0)
            numerator.x numerator.px *
          denominator.x.getD j 0) ∧
    (∀ i, i < q.length → q.getD i 0 = fixPrecision (A + (i : ℚ) * dq')) ∧
    (q ≠ [] ∧ q.getD 0 0 = fixPrecision A) ∧
    (B ≤ A + ((q.length : ℚ) - 1) * dq' ∧
      A + ((q.length : ℚ) - 1) * dq' < B + dq') ∧
    (∀ v, (v < numerator.x.headD 0 ∨ numerator.x.getLastD 0 < v) →
      npInterpZ v numerator.x numerator.px = 0) := by
  intro dq' A B q pq
  have hq : q = create_precise_value_array A B dq := rfl
  have hpq : pq = q.map (fun qi =>
      (List.zipWith (fun dpx dxv =>
          dpx * pdf_at_value numerator (qi * dxv) * dxv)
        denominator.px denominator.x).sum) := rfl
  have hlen : q.length = Int.toNat ⌈(B + dq' - A) / dq'⌉ := by
    rw [hq, cpva_length]
  have hABq : A ≤ B := hAB
  have hvpos : (0 : ℚ) < (B + dq' - A) / dq' := by
    apply div_pos _ hdq
    linarith
  have hceil : (0 : ℤ) < ⌈(B + dq' - A) / dq'⌉ := by
    rw [Int.lt_ceil]
    simpa using hvpos
  have hlenpos : 0 < q.length := by
    rw [hlen]
    omega
  have hcast : ((q.length : ℚ)) = ((⌈(B + dq' - A) / dq'⌉ : ℤ) : ℚ) := by
    rw [hlen]
    norm_cast
    omega
  refine ⟨?_, ?_, ?_, ⟨?_, ?_⟩, ⟨?_, ?_⟩, ?_⟩
  · rw [hpq, List.length_map]
  · intro i hi
    rw [hpq, getD_map_q _ _ _ hi]
    simp only [pdf_at_value]
    exact zipWith_sum_eq_finset _ _ _ hdl
  · intro i hi
    rw [hq] at hi ⊢
    exact cpva_getD _ _ _ _ hi
  · intro hnil
    rw [hnil] at hlenpos
    simp at hlenpos
  · have h0 : (0 : ℕ) < q.length := hlenpos
    rw [hq] at h0 ⊢
    rw [cpva_getD _ _ _ _ h0]
    norm_num
  · have hle : (B + dq' - A) / dq' ≤ ((⌈(B + dq' - A) / dq'⌉ : ℤ) : ℚ) :=
      Int.le_ceil _
    rw [← hcast] at hle
    have := (div_le_iff₀ hdq).mp hle
    nlinarith
  · have hlt : ((⌈(B + dq' - A) / dq'⌉ : ℤ) : ℚ) < (B + dq' - A) / dq' + 1 :=
      Int.ceil_lt_add_one _
    rw [← hcast] at hlt
    have h2 : ((q.length : ℚ) - 1) * dq' < ((B + dq' - A) / dq') * dq' := by
      apply mul_lt_mul_of_pos_right _ hdq
      linarith
    rw [div_mul_cancel₀ _ (ne_of_gt hdq)] at h2
    linarith
  · intro v hv
    exact npInterpZ_outside v _ _ hv

end RISeR

namespace RISeR

/-- C2 witness: the theorem applied to the uniform numerator on `[0,2]`
and the uniform denominator on `[1,2]` with `max_quotient = 2`,
`dq = 1`. -/
theorem c2_divide_variables_raw_witness :
    ((⟨[1, 2], [1, 1], none, none, none⟩ : PDFModel).px.length =
        (⟨[1, 2], [1, 1], none, none, none⟩ : PDFModel).x.length ∧
      (∀ v ∈ (⟨[1, 2], [1, 1], none, none, none⟩ : PDFModel).x, 0 < v) ∧
      0 < fixPrecision 1 ∧
      egUniform.x.headD 0 /
          (⟨[1, 2], [1, 1], none, none, none⟩ : PDFModel).x.getLastD 0 ≤
        min 2 (egUniform.x.getLastD 0 /
          (⟨[1, 2], [1, 1], none, none, none⟩ : PDFModel).x.headD 0)) ∧
    (let dq' := fixPrecision 1
    let A := egUniform.x.headD 0 /
      (⟨[1, 2], [1, 1], none, none, none⟩ : PDFModel).x.getLastD 0
    let B := min 2 (egUniform.x.getLastD 0 /
      (⟨[1, 2], [1, 1], none, none, none⟩ : PDFModel).x.headD 0)
    let q := (divideVariablesRaw egUniform
      ⟨[1, 2], [1, 1], none, none, none⟩ 2 1).1
    let pq := (divideVariablesRaw egUniform
      ⟨[1, 2], [1, 1], none, none, none⟩ 2 1).2
    pq.length = q.length ∧
    (∀ i, i < q.length → pq.getD i 0 =
      ∑ j in Finset.range
        (⟨[1, 2], [1, 1], none, none, none⟩ : PDFModel).x.length,
        (⟨[1, 2], [1, 1], none, none, none⟩ : PDFModel).px.getD j 0 *
          npInterpZ (q.getD i 0 *
              (⟨[1, 2], [1, 1], none, none, none⟩ : PDFModel).x.getD j 0)
            egUniform.x egUniform.px *
          (⟨[1, 2], [1, 1], none, none, none⟩ : PDFModel).x.getD j 0) ∧
    (∀ i, i < q.length → q.getD i 0 = fixPrecision (A + (i : ℚ) * dq')) ∧
    (q ≠ [] ∧ q.getD 0 0 = fixPrecision A) ∧
    (B ≤ A + ((q.length : ℚ) - 1) * dq' ∧
      A + ((q.length : ℚ) - 1) * dq' < B + dq') ∧
    (∀ v, (v < egUniform.x.headD 0 ∨ egUniform.x.getLastD 0 < v) →
      npInterpZ v egUniform.x egUniform.px = 0)) :=
  ⟨⟨rfl, by with_unfolding_all decide, by with_unfolding_all decide,
    by with_unfolding_all decide⟩,
   c2_divide_variables_raw egUniform ⟨[1, 2], [1, 1], none, none, none⟩ 2 1
     rfl (by with_unfolding_all decide) (by with_unfolding_all decide)
     (by with_unfolding_all decide)⟩

end RISeR

namespace RISeR

/-- Linear interpolation evaluated exactly at a knot returns that knot's
value (knots strictly increasing in the first coordinate). -/
theorem npInterpCore_knot :
    ∀ (l : List (ℚ × ℚ)), l.Pairwise (fun a b => a.1 < b.1) →
      ∀ (i : ℕ) (hi : i < l.length),
        npInterpCore (l.get ⟨i, hi⟩).1 l = (l.get ⟨i, hi⟩).2 := by
  intro l
  induction l with
  | nil => intro _ i hi; simp at hi
  | cons a t ih =>
      intro hp i hi
      rcases List.pairwise_cons.mp hp with ⟨hphead, hptail⟩
      cases t with
      | nil =>
          have hi0 : i = 0 := by simp at hi; omega
          subst hi0
          simp [npInterpCore]
      | cons b rest =>
          cases i with
          | zero =>
              have hab : a.1 < b.1 := hphead b (by simp)
              show npInterpCore a.1 (a :: b :: rest) = a.2
              simp only [npInterpCore]
              rw [if_pos (le_of_lt hab), sub_self]
              simp
          | succ i' =>
              cases i' with
              | zero =>
                  have hab : a.1 < b.1 := hphead b (by simp)
                  show npInterpCore b.1 (a :: b :: rest) = b.2
                  simp only [npInterpCore]
                  rw [if_pos (le_refl b.1), mul_div_assoc,
                    div_self (sub_ne_zero.mpr (ne_of_gt hab)), mul_one]
                  ring
              | succ i'' =>
                  have hi' : i'' + 1 < (b :: rest).length := by
                    simp at hi ⊢
                    omega
                  have hv : (a :: b :: rest).get ⟨i'' + 2, hi⟩ =
                      (b :: rest).get ⟨i'' + 1, hi'⟩ := rfl
                  have hb : b.1 < ((b :: rest).get ⟨i'' + 1, hi'⟩).1 := by
                    have := List.pairwise_iff_get.mp hptail ⟨0, by simp⟩
                      ⟨i'' + 1, hi'⟩ (Fin.mk_lt_mk.mpr (Nat.succ_pos _))
                    simpa using this
                  rw [hv]
                  simp only [npInterpCore]
                  rw [if_neg (not_le.mpr hb)]
                  exact ih hptail (i'' + 1) hi'

end RISeR

namespace RISeR

/-- `getLastD` of a nonempty list is its last indexed element (the
default is irrelevant). -/
theorem getLastD_eq_get (x0 : ℚ) :
    ∀ (xs : List ℚ) (d : ℚ) (h : xs.length < (x0 :: xs).length),
      (x0 :: xs).getLastD d = (x0 :: xs).get ⟨xs.length, h⟩ := by
  intro xs
  induction xs generalizing x0 with
  | nil => intro d h; rfl
  | cons y t ih =>
      intro d h
      have := ih y x0 (by simp)
      simpa [List.getLastD] using this

/-- Adjacent entries of a strictly increasing list, via `getD`. -/
theorem chain'_lt_getD (x : List ℚ) (h : List.Chain' (· < ·) x) (i : ℕ)
    (hi : i + 1 < x.length) : x.getD i 0 < x.getD (i + 1) 0 := by
  have hp : x.Pairwise (· < ·) := List.chain'_iff_pairwise.mp h
  have := List.pairwise_iff_get.mp hp ⟨i, by omega⟩ ⟨i + 1, hi⟩
    (Fin.mk_lt_mk.mpr (by omega))
  rw [List.getD_eq_getElem _ _ (by omega), List.getD_eq_getElem _ _ hi]
  simpa using this

/-- `np.interp` with zero edges, evaluated at the `i`-th knot of a
strictly increasing knot list, returns the `i`-th value. -/
theorem npInterpZ_knot (xs ps : List ℚ) (hlen : ps.length = xs.length)
    (hmono : List.Chain' (· < ·) xs) (i : ℕ) (hi : i < xs.length) :
    npInterpZ (xs.get ⟨i, hi⟩) xs ps =
      ps.get ⟨i, by rw [hlen]; exact hi⟩ := by
  have hp : xs.Pairwise (· < ·) := List.chain'_iff_pairwise.mp hmono
  match xs, hi with
  | x0 :: tl, hi =>
  have hphead := (List.pairwise_cons.mp hp).1
  have hvge : x0 ≤ (x0 :: tl).get ⟨i, hi⟩ := by
    cases i with
    | zero => exact le_refl _
    | succ i' =>
        refine le_of_lt ?_
        have := List.pairwise_iff_get.mp hp ⟨0, by simp⟩ ⟨i' + 1, hi⟩
          (Fin.mk_lt_mk.mpr (Nat.succ_pos _))
        simpa using this
  have hlast : (x0 :: tl).getLastD x0 =
      (x0 :: tl).get ⟨tl.length, by simp⟩ := getLastD_eq_get x0 tl x0 (by simp)
  have hvle : (x0 :: tl).get ⟨i, hi⟩ ≤ (x0 :: tl).getLastD x0 := by
    rw [hlast]
    rcases Nat.lt_or_ge i tl.length with hlt | hge
    · refine le_of_lt ?_
      exact List.pairwise_iff_get.mp hp ⟨i, hi⟩ ⟨tl.length, by simp⟩
        (Fin.mk_lt_mk.mpr hlt)
    · have : i = tl.length := by simp at hi; omega
      subst this
      exact le_refl _
  have hzlen : i < ((x0 :: tl).zip ps).length := by
    rw [List.length_zip, hlen]
    simp only [Nat.min_self]
    exact hi
  have hzip : ((x0 :: tl).zip ps).get ⟨i, hzlen⟩ =
      ((x0 :: tl).get ⟨i, hi⟩, ps.get ⟨i, by rw [hlen]; exact hi⟩) := by
    simp [List.getElem_zip]
  have hzl : ((x0 :: tl).zip ps).length = (x0 :: tl).length := by
    rw [List.length_zip, hlen]
    simp
  have hzp : ((x0 :: tl).zip ps).Pairwise (fun a b => a.1 < b.1) := by
    rw [List.pairwise_iff_get] at hp ⊢
    intro a b hab
    have ha : (a : ℕ) < (x0 :: tl).length := by
      have := a.isLt
      omega
    have hb : (b : ℕ) < (x0 :: tl).length := by
      have := b.isLt
      omega
    have := hp ⟨a, ha⟩ ⟨b, hb⟩ (Fin.mk_lt_mk.mpr hab)
    simpa [List.getElem_zip] using this
  have hcore := npInterpCore_knot ((x0 :: tl).zip ps) hzp i hzlen
  rw [hzip] at hcore
  simp only [npInterpZ, npInterpGen]
  rw [if_neg (not_lt.mpr hvge), if_neg (not_lt.mpr hvle)]
  exact hcore

end RISeR

namespace RISeR

/-- Scaling all values by `1/c` scales the trapezoid sum by `1/c`. -/
theorem trapzPairs_map_scale (c : ℚ) :
    ∀ l : List (ℚ × ℚ),
      trapzPairs (l.map (fun ab => (ab.1, ab.2 / c))) = trapzPairs l / c := by
  intro l
  induction l with
  | nil => simp [trapzPairs]
  | cons a t ih =>
      cases t with
      | nil => simp [trapzPairs]
      | cons b rest =>
          simp only [List.map_cons, trapzPairs] at ih ⊢
          rw [ih]
          ring

/-- `trapz` after dividing the densities by `c`. -/
theorem trapz_map_div (x px : List ℚ) (c : ℚ) :
    trapz x (px.map (fun p => p / c)) = trapz x px / c := by
  rw [trapz, trapz, ← trapzPairs_map_scale]
  congr 1
  rw [List.zip_map_right]
  rfl

/-- `Except` reduction: bind after an error. -/
theorem except_err_bind {α β : Type} (e : RiserError)
    (f : α → Except RiserError β) : (Except.error e >>= f) = .error e := rfl

/-- `Except` reduction: bind after a success. -/
theorem except_ok_bind {α β : Type} (a : α)
    (f : α → Except RiserError β) : (Except.ok a >>= f) = f a := rfl

/-- `throw` is `Except.error`. -/
theorem except_throw {α : Type} (e : RiserError) :
    (throw e : Except RiserError α) = .error e := rfl

/-- `pure` is `Except.ok`. -/
theorem except_pure {α : Type} (a : α) :
    (pure a : Except RiserError α) = .ok a := rfl

/-- Inversion of a successful normalized construction: the result is the
input domain with the area-normalized densities and the given
metadata. -/
theorem mkPDF_ok_inv (x px : List ℚ) (nm vt u : Option String)
    (res : PDFModel) (h : mkPDF x px true nm vt u = .ok res) :
    res = ⟨x, px.map (fun p => p / trapz x px), nm, vt, u⟩ := by
  simp only [mkPDF, validatePDF, except_throw, except_pure, if_true] at h
  by_cases h1 : x.length ≠ px.length
  · simp only [if_pos h1, except_err_bind] at h
    exact absurd h (by simp)
  · simp only [if_neg h1, except_ok_bind] at h
    by_cases h2 : ((diffs x).any fun d => decide (d < 0)) = true
    · simp only [if_pos h2, except_err_bind] at h
      exact absurd h (by simp)
    · simp only [if_neg h2, except_ok_bind] at h
      by_cases h3 : ((px.map (fun p => p / trapz x px)).any
          fun p => decide (p < 0)) = true
      · simp only [if_pos h3, except_err_bind] at h
        exact absurd h (by simp)
      · simp only [if_neg h3, except_ok_bind] at h
        by_cases h4 : RISER_PRECISION <
            |1 - trapz x (px.map (fun p => p / trapz x px))|
        · simp only [if_pos h4, except_err_bind] at h
          exact absurd h (by simp)
        · simp only [if_neg h4, except_ok_bind] at h
          simpa using h.symm

end RISeR

namespace RISeR

/-- In-bounds `getD` entries are members. -/
theorem getD_mem_q (l : List ℚ) (i : ℕ) (h : i < l.length) :
    l.getD i 0 ∈ l := by
  rw [List.getD_eq_getElem _ _ h]
  exact List.getElem_mem h

/-- A strictly increasing domain has no negative steps. -/
theorem chain'_diffs_no_neg (x : List ℚ) (h : List.Chain' (· < ·) x) :
    ((diffs x).any fun d => decide (d < 0)) = false := by
  rw [List.any_eq_false]
  intro d hd
  simp only [decide_eq_true_eq, not_lt]
  rcases List.mem_iff_get.mp hd with ⟨⟨i, hi⟩, rfl⟩
  have hi' : i + 1 < x.length := by
    have := hi
    rw [diffs_length] at this
    omega
  have := chain'_lt_getD x h i hi'
  have hg : (diffs x).get ⟨i, hi⟩ = (diffs x).getD i 0 := by
    rw [List.get_eq_getElem, List.getD_eq_getElem _ _ hi]
  rw [hg, diffs_getD x i hi']
  linarith

/-- Forward evaluation of a successful normalized construction. -/
theorem mkPDF_ok_of (x px : List ℚ) (nm vt u : Option String)
    (h1 : x.length = px.length)
    (h2 : ((diffs x).any fun d => decide (d < 0)) = false)
    (h3 : ((px.map (fun p => p / trapz x px)).any
      fun p => decide (p < 0)) = false)
    (h4 : ¬ RISER_PRECISION < |1 - trapz x (px.map (fun p => p / trapz x px))|) :
    mkPDF x px true nm vt u =
      .ok ⟨x, px.map (fun p => p / trapz x px), nm, vt, u⟩ := by
  simp only [mkPDF, validatePDF, except_throw, except_pure, if_true]
  rw [if_neg (by omega : ¬ x.length ≠ px.length), except_ok_bind,
    if_neg (by simp [h2]), except_ok_bind, if_neg (by simp [h3]),
    except_ok_bind, if_neg h4, except_ok_bind, except_ok_bind]

/-- C8: (1) resampling a valid PDF onto its own `x` array succeeds and
returns its own densities, each rescaled by the unit-area normalization
factor (so each density moves by at most the relative normalization
tolerance `10⁻¹⁰/(1-10⁻¹⁰)`); (2) on any target array, a successful
resampling carries the original's `name`, `variable_type` and `unit`
verbatim and has density zero at every target point strictly outside
the original support. -/
theorem c8_interpolate_pdf (pdf : PDFModel)
    (hlen : pdf.px.length = pdf.x.length)
    (hmono : List.Chain' (· < ·) pdf.x)
    (hnn : ∀ p ∈ pdf.px, 0 ≤ p)
    (hA : |1 - trapz pdf.x pdf.px| ≤ 1 / 10 ^ 10) :
    (∃ res, interpolatePdf pdf pdf.x = .ok res ∧
      res.x = pdf.x ∧
      res.px = pdf.px.map (fun p => p / trapz pdf.x pdf.px) ∧
      (∀ i, i < pdf.px.length →
        |res.px.getD i 0 - pdf.px.getD i 0| ≤
          pdf.px.getD i 0 * ((1 / 10 ^ 10) / (1 - 1 / 10 ^ 10)))) ∧
    (∀ newX res, interpolatePdf pdf newX = .ok res →
      res.x = newX ∧ res.name = pdf.name ∧
      res.variable_type = pdf.variable_type ∧ res.unit = pdf.unit ∧
      (∀ i, i < newX.length →
        (newX.getD i 0 < pdf.x.headD 0 ∨ pdf.x.getLastD 0 < newX.getD i 0) →
        res.px.getD i 0 = 0)) := by
  have hA1 : 1 - 1 / 10 ^ 10 ≤ trapz pdf.x pdf.px := by
    have := abs_le.mp hA
    linarith [this.1]
  have hApos : 0 < trapz pdf.x pdf.px := by
    have : (0 : ℚ) < 1 - 1 / 10 ^ 10 := by norm_num
    linarith
  constructor
  · -- self-resampling
    have hresamp : pdf.x.map (fun v => npInterpZ v pdf.x pdf.px) = pdf.px := by
      apply List.ext_get
      · rw [List.length_map, hlen]
      · intro n h1 h2
        rw [List.get_map]
        exact npInterpZ_knot pdf.x pdf.px hlen hmono n (by simpa using h1)
    have h3 : ((pdf.px.map (fun p => p / trapz pdf.x pdf.px)).any
        fun p => decide (p < 0)) = false := by
      rw [List.any_eq_false]
      intro p hp
      simp only [decide_eq_true_eq, not_lt]
      rcases List.mem_map.mp hp with ⟨q, hq, rfl⟩
      exact div_nonneg (hnn q hq) (le_of_lt hApos)
    have h4 : ¬ RISER_PRECISION < |1 - trapz pdf.x
        (pdf.px.map (fun p => p / trapz pdf.x pdf.px))| := by
      rw [trapz_map_div, div_self (ne_of_gt hApos)]
      simp [RISER_PRECISION]
    have hok : interpolatePdf pdf pdf.x =
        .ok ⟨pdf.x, pdf.px.map (fun p => p / trapz pdf.x pdf.px),
          pdf.name, pdf.variable_type, pdf.unit⟩ := by
      rw [interpolatePdf, hresamp]
      exact mkPDF_ok_of pdf.x pdf.px pdf.name pdf.variable_type pdf.unit
        hlen.symm (chain'_diffs_no_neg pdf.x hmono) h3 h4
    refine ⟨_, hok, rfl, rfl, ?_⟩
    intro i hi
    rw [getD_map_q _ _ _ hi]
    have hp0 : 0 ≤ pdf.px.getD i 0 := hnn _ (getD_mem_q pdf.px i hi)
    have hkey : |pdf.px.getD i 0 / trapz pdf.x pdf.px - pdf.px.getD i 0| =
        pdf.px.getD i 0 * |1 - trapz pdf.x pdf.px| / trapz pdf.x pdf.px := by
      have hstep : pdf.px.getD i 0 / trapz pdf.x pdf.px - pdf.px.getD i 0 =
          pdf.px.getD i 0 * (1 - trapz pdf.x pdf.px) / trapz pdf.x pdf.px := by
        field_simp
        ring
      rw [hstep, abs_div, abs_mul, abs_of_nonneg hp0, abs_of_pos hApos]
    rw [hkey]
    have hdiv : |1 - trapz pdf.x pdf.px| / trapz pdf.x pdf.px ≤
        (1 / 10 ^ 10) / (1 - 1 / 10 ^ 10) := by
      apply div_le_div₀ (by norm_num) hA (by norm_num) hA1
    calc pdf.px.getD i 0 * |1 - trapz pdf.x pdf.px| / trapz pdf.x pdf.px
        = pdf.px.getD i 0 *
          (|1 - trapz pdf.x pdf.px| / trapz pdf.x pdf.px) := by ring
      _ ≤ pdf.px.getD i 0 * ((1 / 10 ^ 10) / (1 - 1 / 10 ^ 10)) :=
          mul_le_mul_of_nonneg_left hdiv hp0
  · -- arbitrary target array
    intro newX res h
    have hinv := mkPDF_ok_inv newX
      (newX.map (fun v => npInterpZ v pdf.x pdf.px)) pdf.name
      pdf.variable_type pdf.unit res h
    subst hinv
    refine ⟨rfl, rfl, rfl, rfl, ?_⟩
    intro i hi hout
    have hi' : i < (newX.map (fun v => npInterpZ v pdf.x pdf.px)).length := by
      simpa using hi
    rw [getD_map_q _ _ _ hi', getD_map_q _ _ _ hi]
    rw [npInterpZ_outside _ _ _ hout, zero_div]

end RISeR

namespace RISeR

/-- C8 witness: the theorem applied to the triangular PDF on `[0,2]`
with unit area. -/
theorem c8_interpolate_pdf_witness :
    ((⟨[0, 1, 2], [0, 1, 0], none, none, none⟩ : PDFModel).px.length =
        (⟨[0, 1, 2], [0, 1, 0], none, none, none⟩ : PDFModel).x.length ∧
      List.Chain' (· < ·)
        (⟨[0, 1, 2], [0, 1, 0], none, none, none⟩ : PDFModel).x ∧
      (∀ p ∈ (⟨[0, 1, 2], [0, 1, 0], none, none, none⟩ : PDFModel).px,
        0 ≤ p) ∧
      |1 - trapz (⟨[0, 1, 2], [0, 1, 0], none, none, none⟩ : PDFModel).x
          (⟨[0, 1, 2], [0, 1, 0], none, none, none⟩ : PDFModel).px| ≤
        1 / 10 ^ 10) ∧
    ((∃ res, interpolatePdf ⟨[0, 1, 2], [0, 1, 0], none, none, none⟩
        (⟨[0, 1, 2], [0, 1, 0], none, none, none⟩ : PDFModel).x = .ok res ∧
      res.x = (⟨[0, 1, 2], [0, 1, 0], none, none, none⟩ : PDFModel).x ∧
      res.px = (⟨[0, 1, 2], [0, 1, 0], none, none, none⟩ : PDFModel).px.map
        (fun p => p /
          trapz (⟨[0, 1, 2], [0, 1, 0], none, none, none⟩ : PDFModel).x
            (⟨[0, 1, 2], [0, 1, 0], none, none, none⟩ : PDFModel).px) ∧
      (∀ i, i <
          (⟨[0, 1, 2], [0, 1, 0], none, none, none⟩ : PDFModel).px.length →
        |res.px.getD i 0 -
            (⟨[0, 1, 2], [0, 1, 0], none, none, none⟩ :
              PDFModel).px.getD i 0| ≤
          (⟨[0, 1, 2], [0, 1, 0], none, none, none⟩ :
            PDFModel).px.getD i 0 *
            ((1 / 10 ^ 10) / (1 - 1 / 10 ^ 10)))) ∧
    (∀ newX res,
      interpolatePdf ⟨[0, 1, 2], [0, 1, 0], none, none, none⟩ newX =
        .ok res →
      res.x = newX ∧
      res.name = (⟨[0, 1, 2], [0, 1, 0], none, none, none⟩ :
        PDFModel).name ∧
      res.variable_type = (⟨[0, 1, 2], [0, 1, 0], none, none, none⟩ :
        PDFModel).variable_type ∧
      res.unit = (⟨[0, 1, 2], [0, 1, 0], none, none, none⟩ :
        PDFModel).unit ∧
      (∀ i, i < newX.length →
        (newX.getD i 0 <
            (⟨[0, 1, 2], [0, 1, 0], none, none, none⟩ :
              PDFModel).x.headD 0 ∨
          (⟨[0, 1, 2], [0, 1, 0], none, none, none⟩ :
            PDFModel).x.getLastD 0 < newX.getD i 0) →
        res.px.getD i 0 = 0))) :=
  ⟨⟨rfl, by norm_num [List.chain'_cons], by with_unfolding_all decide,
    by with_unfolding_all decide⟩,
   c8_interpolate_pdf ⟨[0, 1, 2], [0, 1, 0], none, none, none⟩ rfl
     (by norm_num [List.chain'_cons]) (by with_unfolding_all decide)
     (by with_unfolding_all decide)⟩

end RISeR
